import Mathlib

attribute [local semireducible] Rat.add Rat.sub Rat.mul Rat.inv

/-!
Verification of the arithmetic-expression compiler in `src/main.cpp`:
a lexer (string to tokens), a recursive-descent parser (tokens to AST)
and a tree evaluator (AST to number).

Modelling conventions:
* C++ `double` is modelled by `ℚ` (exact rational arithmetic); IEEE
  rounding is outside the scope of this embedding.
* Every `throw` site of the source gets its own constructor of `Err`;
  `ArithmeticCompiler::compile_and_evaluate`'s catch-and-rewrap becomes
  the `CompilationError` wrapper.
* The unbounded recursion of the recursive-descent parser is run on an
  explicit fuel parameter; `Err.outOfFuel` is an artifact of the model
  that is never produced when the fuel is at least the recursion depth.
  The lexer's internal loops (`skip_whitespace`, `number`) always get
  provably sufficient fuel computed from the remaining input, so the
  lexer itself is fuel-free at its interface.
-/

/-- Token kinds, from the C++ `enum class TokenType`. -/
inductive TokenType where
  | NUMBER
  | PLUS
  | MINUS
  | MULTIPLY
  | DIVIDE
  | LPAREN
  | RPAREN
  | END_OF_FILE
deriving DecidableEq, Repr

/-- The C++ `struct Token`: a kind and a numeric payload (0 when unused). -/
structure Token where
  type : TokenType
  value : ℚ
deriving DecidableEq, Repr

/-- Every throw site of the source, as an error kind.  The quoted C++
message of each site is produced by `Err.message`. -/
inductive Err where
  | invalidCharacter (c : Char)
  | numericConversionFailure
  | divisionByZero
  | unknownBinaryOperator
  | unknownUnaryOperator
  | unexpectedToken
  | unexpectedTokenAtEnd
  | invalidStx
  | outOfFuel
deriving DecidableEq, Repr

/-- The message attached to each throw site in the source (`invalidStx`
is the parser's "Invalid syntax" throw; `numericConversionFailure` is the
`std::invalid_argument` raised by `std::stod`; `outOfFuel` is the model
artifact and has no source counterpart). -/
def Err.message : Err → String
  | .invalidCharacter c => "Invalid character: " ++ String.mk [c]
  | .numericConversionFailure => "stod"
  | .divisionByZero => "Division by zero"
  | .unknownBinaryOperator => "Unknown binary operator"
  | .unknownUnaryOperator => "Unknown unary operator"
  | .unexpectedToken => "Unexpected token"
  | .unexpectedTokenAtEnd => "Unexpected token at end of expression"
  | .invalidStx => "Invalid syntax"
  | .outOfFuel => "out of fuel"

/-- The spec's `UnexpectedToken` taxon covers both of the source's
"Unexpected token" throw sites: `Parser::eat`'s mismatch and
`Parser::parse`'s trailing-token check. -/
def Err.isUnexpectedTokenKind : Err → Bool
  | .unexpectedToken => true
  | .unexpectedTokenAtEnd => true
  | _ => false

/-- Lexer state: the input text and the scan position.  The C++ class
also caches `current_char`; the cache always equals the character at
`position` (or the `'\0'` sentinel past the end), so it is computed on
demand here by `Lexer.current_char`. -/
structure Lexer where
  input : List Char
  position : Nat
deriving DecidableEq, Repr

/-- The cached character of the C++ lexer: the character at `position`,
or the sentinel `'\0'` when the position is past the end. -/
def Lexer.current_char (l : Lexer) : Char :=
  l.input.getD l.position '\x00'

/-- The C++ `Lexer::advance`: step the position (the character cache is
recomputed by `current_char`). -/
def Lexer.advance (l : Lexer) : Lexer :=
  ⟨l.input, l.position + 1⟩

/-- C `isspace` on the default locale, as used by the lexer. -/
def isspace (c : Char) : Bool :=
  c == ' ' || c == '\t' || c == '\n' || c == '\x0b' || c == '\x0c' || c == '\r'

/-- C `isdigit`. -/
def isdigit (c : Char) : Bool :=
  48 ≤ c.toNat && c.toNat ≤ 57

/-- The character class scanned by `Lexer::number`: digits and dots. -/
def isDigitOrDot (c : Char) : Bool :=
  isdigit c || c == '.'

/-- Fuel-indexed body of the `while` loop of `Lexer::skip_whitespace`.
The fuel given by `skip_whitespace` covers the whole remaining input, and
every iteration advances the position by one, so the fuel never runs out
before the loop condition fails. -/
def skipWsGo : Nat → Lexer → Lexer
  | 0, l => l
  | fuel + 1, l =>
    if l.current_char != '\x00' && isspace l.current_char then
      skipWsGo fuel l.advance
    else l

/-- The C++ `Lexer::skip_whitespace`. -/
def skip_whitespace (l : Lexer) : Lexer :=
  skipWsGo (l.input.length - l.position) l

/-- Fuel-indexed body of the scanning loop of `Lexer::number`: collect
the maximal run of digits and dots, advancing past it. -/
def scanNumGo : Nat → Lexer → List Char × Lexer
  | 0, l => ([], l)
  | fuel + 1, l =>
    if l.current_char != '\x00' && isDigitOrDot l.current_char then
      let rest := scanNumGo fuel l.advance
      (l.current_char :: rest.1, rest.2)
    else ([], l)

/-- The scanning loop of `Lexer::number` (builds `num_str` and leaves the
lexer after the run). -/
def scan_number (l : Lexer) : List Char × Lexer :=
  scanNumGo (l.input.length - l.position) l

/-- Digit string to natural number. -/
def digitsToNat (ds : List Char) : Nat :=
  ds.foldl (fun acc c => acc * 10 + (c.toNat - 48)) 0

/-- Modelled from the C++ standard library: `std::stod` (hence C `strtod`)
restricted to strings of digits and dots, the only strings `Lexer::number`
passes to it.  It converts the longest prefix of the form
digits, optionally followed by a dot and more digits; it fails (throws
`std::invalid_argument`) when that prefix contains no digit at all.
Characters after the prefix, such as the second dot of "1.2.3", are
silently ignored. -/
def stod (cs : List Char) : Option ℚ :=
  let intDs := cs.takeWhile isdigit
  let rest := cs.drop intDs.length
  match rest with
  | '.' :: rest2 =>
    let fracDs := rest2.takeWhile isdigit
    if intDs.isEmpty && fracDs.isEmpty then none
    else some ((digitsToNat intDs : ℚ) + (digitsToNat fracDs : ℚ) / (10 : ℚ) ^ fracDs.length)
  | _ => if intDs.isEmpty then none else some ((digitsToNat intDs : ℚ))

/-- The C++ `Lexer::get_next_token`.  The source's outer `while` loop
only repeats through its whitespace branch, so it is equivalent to
skipping whitespace once and then dispatching on the current character,
in the source's branch order. -/
def get_next_token (l : Lexer) : Except Err (Token × Lexer) :=
  let l1 := skip_whitespace l
  let c := l1.current_char
  if c = '\x00' then .ok (⟨.END_OF_FILE, 0⟩, l1)
  else if isdigit c || c == '.' then
    match stod (scan_number l1).1 with
    | some v => .ok (⟨.NUMBER, v⟩, (scan_number l1).2)
    | none => .error .numericConversionFailure
  else if c = '+' then .ok (⟨.PLUS, 0⟩, l1.advance)
  else if c = '-' then .ok (⟨.MINUS, 0⟩, l1.advance)
  else if c = '*' then .ok (⟨.MULTIPLY, 0⟩, l1.advance)
  else if c = '/' then .ok (⟨.DIVIDE, 0⟩, l1.advance)
  else if c = '(' then .ok (⟨.LPAREN, 0⟩, l1.advance)
  else if c = ')' then .ok (⟨.RPAREN, 0⟩, l1.advance)
  else .error (.invalidCharacter c)

/-- The C++ `Lexer` constructor: position 0 (the character cache is
computed on demand). -/
def mkLexer (s : String) : Lexer :=
  ⟨s.data, 0⟩

/-- The AST node variants: `NumberNode`, `UnaryOpNode`, `BinaryOpNode`. -/
inductive AST where
  | numberNode (value : ℚ)
  | unaryOpNode (op : TokenType) (operand : AST)
  | binaryOpNode (left : AST) (op : TokenType) (right : AST)
deriving DecidableEq, Repr

/-- The virtual `evaluate` methods of the three node classes, as one
exhaustive function: children are evaluated left before right, division
checks the evaluated right operand against exact zero, and operators
outside the constructed set hit the `default:` throw branches. -/
def evaluate : AST → Except Err ℚ
  | .numberNode v => .ok v
  | .binaryOpNode l op r => do
    let left_val ← evaluate l
    let right_val ← evaluate r
    match op with
    | .PLUS => .ok (left_val + right_val)
    | .MINUS => .ok (left_val - right_val)
    | .MULTIPLY => .ok (left_val * right_val)
    | .DIVIDE =>
      if right_val = 0 then .error .divisionByZero
      else .ok (left_val / right_val)
    | _ => .error .unknownBinaryOperator
  | .unaryOpNode op a => do
    let val ← evaluate a
    match op with
    | .PLUS => .ok val
    | .MINUS => .ok (-val)
    | _ => .error .unknownUnaryOperator

/-- Parser state: the owned lexer and the one-token lookahead buffer. -/
structure Parser where
  lexer : Lexer
  current_token : Token
deriving DecidableEq, Repr

/-- The C++ `Parser::eat`: on a kind match refill the lookahead from the
lexer, otherwise throw "Unexpected token". -/
def eat (p : Parser) (token_type : TokenType) : Except Err Parser :=
  if p.current_token.type = token_type then
    (get_next_token p.lexer).map fun tl => ⟨tl.2, tl.1⟩
  else .error .unexpectedToken

/-- Which grammar procedure of the parser is running: `factor`, `term`,
`expr`, or the body of one of the two binary-operator `while` loops
(carrying the node accumulated so far, the C++ local `node`). -/
inductive Rule where
  | factorR
  | termR
  | termLoopR (acc : AST)
  | exprR
  | exprLoopR (acc : AST)
deriving DecidableEq, Repr

/-- The mutually recursive grammar procedures `Parser::factor`,
`Parser::term`, `Parser::expr` (with each `while` loop as its own rule),
combined into one function structurally recursive on the fuel so that it
evaluates by kernel reduction.  Fuel exhaustion yields the model-only
`Err.outOfFuel`. -/
def runRule : Nat → Rule → Parser → Except Err (AST × Parser)
  | 0, _, _ => .error .outOfFuel
  | fuel + 1, .factorR, p =>
    let token := p.current_token
    if token.type = .PLUS then do
      let p1 ← eat p .PLUS
      let (a, p2) ← runRule fuel .factorR p1
      .ok (.unaryOpNode .PLUS a, p2)
    else if token.type = .MINUS then do
      let p1 ← eat p .MINUS
      let (a, p2) ← runRule fuel .factorR p1
      .ok (.unaryOpNode .MINUS a, p2)
    else if token.type = .NUMBER then do
      let p1 ← eat p .NUMBER
      .ok (.numberNode token.value, p1)
    else if token.type = .LPAREN then do
      let p1 ← eat p .LPAREN
      let (node, p2) ← runRule fuel .exprR p1
      let p3 ← eat p2 .RPAREN
      .ok (node, p3)
    else .error .invalidStx
  | fuel + 1, .termR, p => do
    let (node, p1) ← runRule fuel .factorR p
    runRule fuel (.termLoopR node) p1
  | fuel + 1, .termLoopR node, p =>
    if p.current_token.type = .MULTIPLY then do
      let p1 ← eat p .MULTIPLY
      let (rhs, p2) ← runRule fuel .factorR p1
      runRule fuel (.termLoopR (.binaryOpNode node .MULTIPLY rhs)) p2
    else if p.current_token.type = .DIVIDE then do
      let p1 ← eat p .DIVIDE
      let (rhs, p2) ← runRule fuel .factorR p1
      runRule fuel (.termLoopR (.binaryOpNode node .DIVIDE rhs)) p2
    else .ok (node, p)
  | fuel + 1, .exprR, p => do
    let (node, p1) ← runRule fuel .termR p
    runRule fuel (.exprLoopR node) p1
  | fuel + 1, .exprLoopR node, p =>
    if p.current_token.type = .PLUS then do
      let p1 ← eat p .PLUS
      let (rhs, p2) ← runRule fuel .termR p1
      runRule fuel (.exprLoopR (.binaryOpNode node .PLUS rhs)) p2
    else if p.current_token.type = .MINUS then do
      let p1 ← eat p .MINUS
      let (rhs, p2) ← runRule fuel .termR p1
      runRule fuel (.exprLoopR (.binaryOpNode node .MINUS rhs)) p2
    else .ok (node, p)

/-- The C++ `Parser` constructor: build the lexer and fetch the first
token into the lookahead buffer (a lexer error escapes the constructor). -/
def mkParser (s : String) : Except Err Parser :=
  (get_next_token (mkLexer s)).map fun tl => ⟨tl.2, tl.1⟩

/-- The C++ `Parser::parse`: parse one `expr`, then require the
lookahead to be EndOfInput, rejecting trailing tokens. -/
def parse (fuel : Nat) (p : Parser) : Except Err (AST × Parser) := do
  let (node, p1) ← runRule fuel .exprR p
  if p1.current_token.type = .END_OF_FILE then .ok (node, p1)
  else .error .unexpectedTokenAtEnd

/-- The body of the `try` block of
`ArithmeticCompiler::compile_and_evaluate`: construct the parser, parse,
evaluate. -/
def pipeline (fuel : Nat) (s : String) : Except Err ℚ := do
  let p ← mkParser s
  let (ast, _) ← parse fuel p
  evaluate ast

/-- The `catch` wrapper of `compile_and_evaluate`: the message is
"Compilation error: " prefixed to the caught message, modelled by
wrapping the inner cause. -/
structure CompilationError where
  cause : Err
deriving DecidableEq, Repr

/-- The message of the wrapper, exactly as the source builds it. -/
def CompilationError.message (e : CompilationError) : String :=
  "Compilation error: " ++ e.cause.message

/-- The C++ `ArithmeticCompiler::compile_and_evaluate`: run the
pipeline, rewrapping any failure as a `CompilationError`. -/
def compile_and_evaluate (fuel : Nat) (s : String) : Except CompilationError ℚ :=
  match pipeline fuel s with
  | .ok v => .ok v
  | .error e => .error ⟨e⟩

deriving instance DecidableEq for Except

/-- The maximal run of digits and dots starting at the scan position:
what `Lexer::number`'s loop consumes. -/
def numRun (l : Lexer) : List Char :=
  (l.input.drop l.position).takeWhile isDigitOrDot

/-- The operator discipline the parser maintains: every `BinaryOpNode`
it builds carries one of the four binary operators and every
`UnaryOpNode` one of the two signs. -/
def wellFormed : AST → Bool
  | .numberNode _ => true
  | .unaryOpNode op a =>
    (op == .PLUS || op == .MINUS) && wellFormed a
  | .binaryOpNode l op r =>
    (op == .PLUS || op == .MINUS || op == .MULTIPLY || op == .DIVIDE) &&
      wellFormed l && wellFormed r

/-- Well-formedness of the accumulator a rule carries (trivially true
for the rules that carry none). -/
def ruleWF : Rule → Bool
  | .termLoopR acc => wellFormed acc
  | .exprLoopR acc => wellFormed acc
  | _ => true

/-- A tower of `n` unary-minus nodes over a base node. -/
def nestNeg : Nat → AST → AST
  | 0, a => a
  | n + 1, a => .unaryOpNode .MINUS (nestNeg n a)

/-- The input "-...-3" with `n` leading minus signs. -/
def minusStr (n : Nat) : String :=
  ⟨List.replicate n '-' ++ ['3']⟩

/-- The `(k+1)`-th result of pulling tokens from the lexer repeatedly,
each call continuing from the state the previous one returned. -/
def callN : Nat → Lexer → Except Err (Token × Lexer)
  | 0, l => get_next_token l
  | k + 1, l => do
    let (_, l1) ← get_next_token l
    callN k l1

/-- The nonterminals of the spec grammar (section 4.2), with the two
repetition loops as their own nonterminals carrying the node and value
accumulated so far. -/
inductive DRule where
  | dFactor
  | dTerm
  | dTermLoop (acc : AST) (accVal : ℚ)
  | dExpr
  | dExprLoop (acc : AST) (accVal : ℚ)

/-- The parser procedure a spec nonterminal corresponds to. -/
def DRule.toRule : DRule → Rule
  | .dFactor => .factorR
  | .dTerm => .termR
  | .dTermLoop acc _ => .termLoopR acc
  | .dExpr => .exprR
  | .dExprLoop acc _ => .exprLoopR acc

/-- Spec-side reference semantics, following the spec's grammar
(section 4.2) and evaluation rules (section 4.3) rather than the parser
code: `SpecDerives r p a v p'` says that from parser state `p` the
nonterminal `r` derives a phrase whose tree is `a` and whose
mathematical value is `v`, leaving state `p'`.  The two repetition
loops fold their values to the left (left-associativity); `*` and `/`
only combine factors while `+` and `-` combine terms (precedence);
unary signs recurse into `dFactor` (tightest binding); division
requires a nonzero right value (the spec's no-division-by-zero
proviso). -/
inductive SpecDerives : DRule → Parser → AST → ℚ → Parser → Prop where
  | factorPlus {p p1 a v p2} :
    p.current_token.type = .PLUS → eat p .PLUS = .ok p1 →
    SpecDerives .dFactor p1 a v p2 →
    SpecDerives .dFactor p (.unaryOpNode .PLUS a) v p2
  | factorMinus {p p1 a v p2} :
    p.current_token.type = .MINUS → eat p .MINUS = .ok p1 →
    SpecDerives .dFactor p1 a v p2 →
    SpecDerives .dFactor p (.unaryOpNode .MINUS a) (-v) p2
  | factorNum {p p1} :
    p.current_token.type = .NUMBER → eat p .NUMBER = .ok p1 →
    SpecDerives .dFactor p (.numberNode p.current_token.value) p.current_token.value p1
  | factorParen {p p1 a v p2 p3} :
    p.current_token.type = .LPAREN → eat p .LPAREN = .ok p1 →
    SpecDerives .dExpr p1 a v p2 →
    eat p2 .RPAREN = .ok p3 →
    SpecDerives .dFactor p a v p3
  | termIntro {p a v p1 b w p2} :
    SpecDerives .dFactor p a v p1 →
    SpecDerives (.dTermLoop a v) p1 b w p2 →
    SpecDerives .dTerm p b w p2
  | termLoopDone {a v p} :
    p.current_token.type ≠ .MULTIPLY → p.current_token.type ≠ .DIVIDE →
    SpecDerives (.dTermLoop a v) p a v p
  | termLoopMul {a v p p1 b w p2 c u p3} :
    p.current_token.type = .MULTIPLY → eat p .MULTIPLY = .ok p1 →
    SpecDerives .dFactor p1 b w p2 →
    SpecDerives (.dTermLoop (.binaryOpNode a .MULTIPLY b) (v * w)) p2 c u p3 →
    SpecDerives (.dTermLoop a v) p c u p3
  | termLoopDiv {a v p p1 b w p2 c u p3} :
    p.current_token.type = .DIVIDE → eat p .DIVIDE = .ok p1 →
    SpecDerives .dFactor p1 b w p2 → w ≠ 0 →
    SpecDerives (.dTermLoop (.binaryOpNode a .DIVIDE b) (v / w)) p2 c u p3 →
    SpecDerives (.dTermLoop a v) p c u p3
  | exprIntro {p a v p1 b w p2} :
    SpecDerives .dTerm p a v p1 →
    SpecDerives (.dExprLoop a v) p1 b w p2 →
    SpecDerives .dExpr p b w p2
  | exprLoopDone {a v p} :
    p.current_token.type ≠ .PLUS → p.current_token.type ≠ .MINUS →
    SpecDerives (.dExprLoop a v) p a v p
  | exprLoopAdd {a v p p1 b w p2 c u p3} :
    p.current_token.type = .PLUS → eat p .PLUS = .ok p1 →
    SpecDerives .dTerm p1 b w p2 →
    SpecDerives (.dExprLoop (.binaryOpNode a .PLUS b) (v + w)) p2 c u p3 →
    SpecDerives (.dExprLoop a v) p c u p3
  | exprLoopSub {a v p p1 b w p2 c u p3} :
    p.current_token.type = .MINUS → eat p .MINUS = .ok p1 →
    SpecDerives .dTerm p1 b w p2 →
    SpecDerives (.dExprLoop (.binaryOpNode a .MINUS b) (v - w)) p2 c u p3 →
    SpecDerives (.dExprLoop a v) p c u p3

/-- The invariant carried into a loop nonterminal: the accumulated node
evaluates to the accumulated value.  The other nonterminals carry no
accumulator. -/
def DRule.accOK : DRule → Prop
  | .dTermLoop acc accVal => evaluate acc = .ok accVal
  | .dExprLoop acc accVal => evaluate acc = .ok accVal
  | _ => True

/-! Lemma stock: `Except` computation rules stated for `rw`. -/

theorem exc_bind_ok {α β : Type} (v : α) (f : α → Except Err β) :
    (Except.ok v >>= f) = f v := rfl

theorem exc_bind_error {α β : Type} (e : Err) (f : α → Except Err β) :
    ((Except.error e : Except Err α) >>= f) = .error e := rfl

/-! Lemma stock: character classes. -/

theorem ne_null_of_isDigitOrDot {c : Char} (h : isDigitOrDot c = true) :
    c ≠ '\x00' := by
  rintro rfl
  exact absurd h (by decide)

theorem isspace_of_isDigitOrDot {c : Char} (h : isDigitOrDot c = true) :
    isspace c = false := by
  simp only [isDigitOrDot, isdigit, Bool.or_eq_true, Bool.and_eq_true,
    decide_eq_true_eq, beq_iff_eq] at h
  by_contra hsp
  rw [Bool.not_eq_false] at hsp
  simp only [isspace, Bool.or_eq_true, beq_iff_eq] at hsp
  rcases h with ⟨h1, h2⟩ | rfl
  · rcases hsp with ((((rfl | rfl) | rfl) | rfl) | rfl) | rfl <;>
      exact absurd h1 (by decide)
  · rcases hsp with ((((h | h) | h) | h) | h) | h <;> exact absurd h (by decide)

/-! Lemma stock: the lexer. -/

theorem current_char_of_exhausted {l : Lexer} (h : l.input.length ≤ l.position) :
    l.current_char = '\x00' := by
  simp [Lexer.current_char, List.getD_eq_getElem?_getD, List.getElem?_eq_none h]

theorem skipWsGo_id {fuel : Nat} {l : Lexer} (h : isspace l.current_char = false) :
    skipWsGo fuel l = l := by
  cases fuel with
  | zero => rfl
  | succ n => simp [skipWsGo, h]

theorem skip_whitespace_id {l : Lexer} (h : isspace l.current_char = false) :
    skip_whitespace l = l :=
  skipWsGo_id h

theorem get_next_token_exhausted {l : Lexer} (h : l.input.length ≤ l.position) :
    get_next_token l = .ok (⟨.END_OF_FILE, 0⟩, l) := by
  have hc : l.current_char = '\x00' := current_char_of_exhausted h
  have hskip : skip_whitespace l = l := skip_whitespace_id (by rw [hc]; rfl)
  simp [get_next_token, hskip, hc]

theorem current_char_of_drop {l : Lexer} {c : Char} {rest : List Char}
    (h : l.input.drop l.position = c :: rest) : l.current_char = c := by
  have h0 : l.input[l.position]? = some c := by
    have := List.getElem?_drop l.input l.position 0
    rw [h] at this
    simpa using this.symm
  simp [Lexer.current_char, List.getD_eq_getElem?_getD, h0]

theorem drop_advance {l : Lexer} {c : Char} {rest : List Char}
    (h : l.input.drop l.position = c :: rest) :
    l.advance.input.drop l.advance.position = rest := by
  have : l.input.drop (l.position + 1) = (l.input.drop l.position).drop 1 := by
    rw [List.drop_drop]
  simp [Lexer.advance, this, h]

theorem scanNumGo_spec : ∀ (fuel : Nat) (l : Lexer),
    l.input.length - l.position ≤ fuel →
    scanNumGo fuel l =
      (numRun l, ⟨l.input, l.position + (numRun l).length⟩) := by
  intro fuel
  induction fuel with
  | zero =>
    intro l h
    have hle : l.input.length ≤ l.position := by omega
    have hdrop : l.input.drop l.position = [] := List.drop_eq_nil_iff.mpr hle
    simp [scanNumGo, numRun, hdrop]
  | succ n ih =>
    intro l h
    rcases hdrop : l.input.drop l.position with _ | ⟨c, rest2⟩
    · have hle : l.input.length ≤ l.position := List.drop_eq_nil_iff.mp hdrop
      have hc : l.current_char = '\x00' := current_char_of_exhausted hle
      simp [scanNumGo, numRun, hc, hdrop]
    · have hlt : l.position < l.input.length := by
        by_contra hge
        rw [List.drop_eq_nil_iff.mpr (by omega)] at hdrop
        exact List.noConfusion hdrop
      have hc : l.current_char = c := current_char_of_drop hdrop
      rcases hdd : isDigitOrDot c with _ | _
      · -- not a digit or dot: the loop stops at once
        simp [scanNumGo, numRun, hc, hdd, hdrop]
      · -- digit or dot: one step, then the induction hypothesis
        have hne : c ≠ '\x00' := ne_null_of_isDigitOrDot hdd
        have hrec := ih l.advance (by simp [Lexer.advance]; omega)
        rw [numRun, drop_advance hdrop] at hrec
        simp only [scanNumGo, hc, hdd, hne, ne_eq, not_false_eq_true, bne_iff_ne,
          Bool.and_true, if_true, Bool.true_and, if_pos]
        rw [hrec]
        simp only [numRun, hdrop, List.takeWhile_cons, hdd, if_pos]
        simp [Lexer.advance]
        omega

theorem scan_number_spec (l : Lexer) :
    scan_number l = (numRun l, ⟨l.input, l.position + (numRun l).length⟩) :=
  scanNumGo_spec _ l (Nat.le_refl _)

theorem get_next_token_number {l : Lexer} (h : isDigitOrDot l.current_char = true) :
    get_next_token l =
      match stod (numRun l) with
      | some v => .ok (⟨.NUMBER, v⟩, ⟨l.input, l.position + (numRun l).length⟩)
      | none => .error .numericConversionFailure := by
  have hskip : skip_whitespace l = l := skip_whitespace_id (isspace_of_isDigitOrDot h)
  have hne : l.current_char ≠ '\x00' := ne_null_of_isDigitOrDot h
  have h' : (isdigit l.current_char || l.current_char == '.') = true := h
  simp only [get_next_token, hskip, if_neg hne, h', if_true, scan_number_spec l]

theorem exc_bind_eq_ok {α β : Type} {x : Except Err α} {f : α → Except Err β} {v : β} :
    (x >>= f) = .ok v ↔ ∃ a, x = .ok a ∧ f a = .ok v := by
  cases x with
  | error e => simp [exc_bind_error]
  | ok a => simp [exc_bind_ok]

/-! Lemma stock: whitespace-only input lexes to EndOfInput (for C8). -/

theorem skipWsGo_all_space : ∀ (fuel : Nat) (l : Lexer),
    l.input.length - l.position ≤ fuel → l.position ≤ l.input.length →
    (∀ c ∈ l.input.drop l.position, isspace c = true) →
    skipWsGo fuel l = ⟨l.input, l.input.length⟩ := by
  intro fuel
  induction fuel with
  | zero =>
    intro l h hle _
    have hpos : l.position = l.input.length := by omega
    rw [skipWsGo, ← hpos]
  | succ n ih =>
    intro l h hle hsp
    rcases hdrop : l.input.drop l.position with _ | ⟨c, rest2⟩
    · have hle2 : l.input.length ≤ l.position := List.drop_eq_nil_iff.mp hdrop
      have hpos : l.position = l.input.length := by omega
      rw [← hpos]
      simp [skipWsGo, current_char_of_exhausted hle2]
    · have hlt : l.position < l.input.length := by
        by_contra hge
        rw [List.drop_eq_nil_iff.mpr (by omega)] at hdrop
        exact List.noConfusion hdrop
      have hc : l.current_char = c := current_char_of_drop hdrop
      have hspc : isspace c = true := hsp c (by rw [hdrop]; exact List.mem_cons_self c rest2)
      have hnec : c ≠ '\x00' := by
        rintro rfl
        exact absurd hspc (by decide)
      have hstep : skipWsGo (n + 1) l = skipWsGo n l.advance := by
        simp [skipWsGo, hc, hspc, hnec]
      rw [hstep]
      refine ih l.advance (by simp [Lexer.advance]; omega) (by simp [Lexer.advance]; omega) ?_
      intro c' hc'
      refine hsp c' ?_
      rw [hdrop]
      rw [drop_advance hdrop] at hc'
      exact List.mem_cons_of_mem c hc'

theorem get_next_token_all_space {s : String} (hsp : ∀ c ∈ s.data, isspace c = true) :
    get_next_token (mkLexer s) = .ok (⟨.END_OF_FILE, 0⟩, ⟨s.data, s.data.length⟩) := by
  have hskip : skip_whitespace (mkLexer s) = ⟨s.data, s.data.length⟩ := by
    unfold skip_whitespace mkLexer
    exact skipWsGo_all_space _ _ (by simp) (by simp) (by simpa using hsp)
  have hc : Lexer.current_char ⟨s.data, s.data.length⟩ = '\x00' :=
    current_char_of_exhausted (Nat.le_refl _)
  unfold get_next_token
  simp only [hskip, hc]
  rfl

theorem mkParser_all_space {s : String} (hsp : ∀ c ∈ s.data, isspace c = true) :
    mkParser s = .ok ⟨⟨s.data, s.data.length⟩, ⟨.END_OF_FILE, 0⟩⟩ := by
  unfold mkParser
  rw [get_next_token_all_space hsp]
  rfl

/-- One-step unfolding of the `term` procedure, stated as a definitional
equation so that it can be rewritten without cascading. -/
theorem runRule_term_succ (fuel : Nat) (p : Parser) :
    runRule (fuel + 1) .termR p =
      (runRule fuel .factorR p) >>= fun x => runRule fuel (.termLoopR x.1) x.2 := rfl

/-- One-step unfolding of the `expr` procedure. -/
theorem runRule_expr_succ (fuel : Nat) (p : Parser) :
    runRule (fuel + 1) .exprR p =
      (runRule fuel .termR p) >>= fun x => runRule fuel (.exprLoopR x.1) x.2 := rfl

theorem factor_invalidStx {p : Parser} {fuel : Nat}
    (h1 : p.current_token.type ≠ .PLUS) (h2 : p.current_token.type ≠ .MINUS)
    (h3 : p.current_token.type ≠ .NUMBER) (h4 : p.current_token.type ≠ .LPAREN) :
    runRule (fuel + 1) .factorR p = .error .invalidStx := by
  simp [runRule, h1, h2, h3, h4]

theorem expr_invalidStx_of_eof {p : Parser}
    (hEOF : p.current_token.type = .END_OF_FILE) :
    ∀ fuel, 3 ≤ fuel → runRule fuel .exprR p = .error .invalidStx := by
  intro fuel hf
  obtain ⟨f, rfl⟩ : ∃ f, fuel = f + 3 := ⟨fuel - 3, by omega⟩
  have hfac : runRule (f + 1) .factorR p = .error .invalidStx :=
    factor_invalidStx (by simp [hEOF]) (by simp [hEOF]) (by simp [hEOF]) (by simp [hEOF])
  have hterm : runRule (f + 1 + 1) .termR p = .error .invalidStx := by
    rw [runRule_term_succ, hfac, exc_bind_error]
  show runRule (f + 1 + 1 + 1) .exprR p = .error .invalidStx
  rw [runRule_expr_succ, hterm, exc_bind_error]

/-! Lemma stock: the operator discipline of the parser (for C9). -/

theorem runRule_wellFormed : ∀ (fuel : Nat) (r : Rule) (p : Parser) (a : AST) (p' : Parser),
    runRule fuel r p = .ok (a, p') → ruleWF r = true → wellFormed a = true := by
  intro fuel
  induction fuel with
  | zero =>
    intro r p a p' h _
    exact absurd h (by simp [runRule])
  | succ n ih =>
    intro r p a p' h hacc
    cases r with
    | factorR =>
      simp only [runRule] at h
      split at h
      · -- unary plus
        obtain ⟨p1, h1, h⟩ := exc_bind_eq_ok.mp h
        obtain ⟨⟨a2, p2⟩, h2, h3⟩ := exc_bind_eq_ok.mp h
        simp only [Except.ok.injEq, Prod.mk.injEq] at h3
        obtain ⟨rfl, rfl⟩ := h3
        have hwa := ih .factorR p1 a2 p2 h2 rfl
        simp [wellFormed, hwa]
      · split at h
        · -- unary minus
          obtain ⟨p1, h1, h⟩ := exc_bind_eq_ok.mp h
          obtain ⟨⟨a2, p2⟩, h2, h3⟩ := exc_bind_eq_ok.mp h
          simp only [Except.ok.injEq, Prod.mk.injEq] at h3
          obtain ⟨rfl, rfl⟩ := h3
          have hwa := ih .factorR p1 a2 p2 h2 rfl
          simp [wellFormed, hwa]
        · split at h
          · -- number
            obtain ⟨p1, h1, h2⟩ := exc_bind_eq_ok.mp h
            simp only [Except.ok.injEq, Prod.mk.injEq] at h2
            obtain ⟨rfl, rfl⟩ := h2
            simp [wellFormed]
          · split at h
            · -- parenthesized expression
              obtain ⟨p1, h1, h⟩ := exc_bind_eq_ok.mp h
              obtain ⟨⟨a2, p2⟩, h2, h⟩ := exc_bind_eq_ok.mp h
              obtain ⟨p3, h3, h4⟩ := exc_bind_eq_ok.mp h
              simp only [Except.ok.injEq, Prod.mk.injEq] at h4
              obtain ⟨rfl, rfl⟩ := h4
              exact ih .exprR p1 a2 p2 h2 rfl
            · exact absurd h (by simp)
    | termR =>
      simp only [runRule] at h
      obtain ⟨⟨node, p1⟩, h1, h2⟩ := exc_bind_eq_ok.mp h
      have hwn := ih .factorR p node p1 h1 rfl
      exact ih (.termLoopR node) p1 a p' h2 (by simpa [ruleWF] using hwn)
    | termLoopR acc =>
      simp only [runRule] at h
      split at h
      · -- multiply
        obtain ⟨p1, h1, h⟩ := exc_bind_eq_ok.mp h
        obtain ⟨⟨rhs, p2⟩, h2, h3⟩ := exc_bind_eq_ok.mp h
        have hwr := ih .factorR p1 rhs p2 h2 rfl
        refine ih (.termLoopR (.binaryOpNode acc .MULTIPLY rhs)) p2 a p' h3 ?_
        simp only [ruleWF] at hacc ⊢
        simp [wellFormed, hacc, hwr]
      · split at h
        · -- divide
          obtain ⟨p1, h1, h⟩ := exc_bind_eq_ok.mp h
          obtain ⟨⟨rhs, p2⟩, h2, h3⟩ := exc_bind_eq_ok.mp h
          have hwr := ih .factorR p1 rhs p2 h2 rfl
          refine ih (.termLoopR (.binaryOpNode acc .DIVIDE rhs)) p2 a p' h3 ?_
          simp only [ruleWF] at hacc ⊢
          simp [wellFormed, hacc, hwr]
        · -- loop exit
          simp only [Except.ok.injEq, Prod.mk.injEq] at h
          obtain ⟨rfl, rfl⟩ := h
          simpa [ruleWF] using hacc
    | exprR =>
      simp only [runRule] at h
      obtain ⟨⟨node, p1⟩, h1, h2⟩ := exc_bind_eq_ok.mp h
      have hwn := ih .termR p node p1 h1 rfl
      exact ih (.exprLoopR node) p1 a p' h2 (by simpa [ruleWF] using hwn)
    | exprLoopR acc =>
      simp only [runRule] at h
      split at h
      · -- plus
        obtain ⟨p1, h1, h⟩ := exc_bind_eq_ok.mp h
        obtain ⟨⟨rhs, p2⟩, h2, h3⟩ := exc_bind_eq_ok.mp h
        have hwr := ih .termR p1 rhs p2 h2 rfl
        refine ih (.exprLoopR (.binaryOpNode acc .PLUS rhs)) p2 a p' h3 ?_
        simp only [ruleWF] at hacc ⊢
        simp [wellFormed, hacc, hwr]
      · split at h
        · -- minus
          obtain ⟨p1, h1, h⟩ := exc_bind_eq_ok.mp h
          obtain ⟨⟨rhs, p2⟩, h2, h3⟩ := exc_bind_eq_ok.mp h
          have hwr := ih .termR p1 rhs p2 h2 rfl
          refine ih (.exprLoopR (.binaryOpNode acc .MINUS rhs)) p2 a p' h3 ?_
          simp only [ruleWF] at hacc ⊢
          simp [wellFormed, hacc, hwr]
        · -- loop exit
          simp only [Except.ok.injEq, Prod.mk.injEq] at h
          obtain ⟨rfl, rfl⟩ := h
          simpa [ruleWF] using hacc

/-- A well-formed tree evaluates without ever reaching the unknown
operator branches: its only possible failure is `DivisionByZero`. -/
theorem evaluate_wf_error : ∀ (a : AST), wellFormed a = true →
    ∀ e, evaluate a = .error e → e = .divisionByZero := by
  intro a
  induction a with
  | numberNode v =>
    intro _ e h
    exact absurd h (by simp [evaluate])
  | unaryOpNode op a iha =>
    intro hwf e h
    simp only [wellFormed, Bool.and_eq_true, Bool.or_eq_true, beq_iff_eq] at hwf
    obtain ⟨hop, hwa⟩ := hwf
    simp only [evaluate] at h
    cases hev : evaluate a with
    | error e2 =>
      rw [hev, exc_bind_error] at h
      cases h
      exact iha hwa _ hev
    | ok v =>
      rw [hev, exc_bind_ok] at h
      rcases hop with rfl | rfl <;> exact absurd h (by simp)
  | binaryOpNode l op r ihl ihr =>
    intro hwf e h
    simp only [wellFormed, Bool.and_eq_true, Bool.or_eq_true, beq_iff_eq] at hwf
    obtain ⟨⟨hop, hwl⟩, hwr⟩ := hwf
    simp only [evaluate] at h
    cases hevl : evaluate l with
    | error e2 =>
      rw [hevl, exc_bind_error] at h
      cases h
      exact ihl hwl _ hevl
    | ok lv =>
      rw [hevl, exc_bind_ok] at h
      cases hevr : evaluate r with
      | error e2 =>
        rw [hevr, exc_bind_error] at h
        cases h
        exact ihr hwr _ hevr
      | ok rv =>
        rw [hevr, exc_bind_ok] at h
        rcases hop with ((rfl | rfl) | rfl) | rfl
        · exact absurd h (by simp)
        · exact absurd h (by simp)
        · exact absurd h (by simp)
        · by_cases hz : rv = 0
          · rw [if_pos hz] at h
            cases h
            rfl
          · rw [if_neg hz] at h
            exact absurd h (by simp)

/-- One-step unfolding of the `factor` procedure. -/
theorem runRule_factor_succ (fuel : Nat) (p : Parser) :
    runRule (fuel + 1) .factorR p =
      (if p.current_token.type = .PLUS then do
        let p1 ← eat p .PLUS
        let (a, p2) ← runRule fuel .factorR p1
        .ok (.unaryOpNode .PLUS a, p2)
      else if p.current_token.type = .MINUS then do
        let p1 ← eat p .MINUS
        let (a, p2) ← runRule fuel .factorR p1
        .ok (.unaryOpNode .MINUS a, p2)
      else if p.current_token.type = .NUMBER then do
        let p1 ← eat p .NUMBER
        .ok (.numberNode p.current_token.value, p1)
      else if p.current_token.type = .LPAREN then do
        let p1 ← eat p .LPAREN
        let (node, p2) ← runRule fuel .exprR p1
        let p3 ← eat p2 .RPAREN
        .ok (node, p3)
      else .error .invalidStx) := rfl

/-- One-step unfolding of the multiplicative loop of `term`. -/
theorem runRule_termLoop_succ (fuel : Nat) (acc : AST) (p : Parser) :
    runRule (fuel + 1) (.termLoopR acc) p =
      (if p.current_token.type = .MULTIPLY then do
        let p1 ← eat p .MULTIPLY
        let (rhs, p2) ← runRule fuel .factorR p1
        runRule fuel (.termLoopR (.binaryOpNode acc .MULTIPLY rhs)) p2
      else if p.current_token.type = .DIVIDE then do
        let p1 ← eat p .DIVIDE
        let (rhs, p2) ← runRule fuel .factorR p1
        runRule fuel (.termLoopR (.binaryOpNode acc .DIVIDE rhs)) p2
      else .ok (acc, p)) := rfl

/-- One-step unfolding of the additive loop of `expr`. -/
theorem runRule_exprLoop_succ (fuel : Nat) (acc : AST) (p : Parser) :
    runRule (fuel + 1) (.exprLoopR acc) p =
      (if p.current_token.type = .PLUS then do
        let p1 ← eat p .PLUS
        let (rhs, p2) ← runRule fuel .termR p1
        runRule fuel (.exprLoopR (.binaryOpNode acc .PLUS rhs)) p2
      else if p.current_token.type = .MINUS then do
        let p1 ← eat p .MINUS
        let (rhs, p2) ← runRule fuel .termR p1
        runRule fuel (.exprLoopR (.binaryOpNode acc .MINUS rhs)) p2
      else .ok (acc, p)) := rfl

/-- Completeness of the recursive-descent parser against the spec
grammar, together with evaluation soundness: whatever the grammar
derives, the parser computes (with enough fuel) and the evaluator
values as the grammar says. -/
theorem specDerives_complete :
    ∀ {dr : DRule} {p : Parser} {a : AST} {v : ℚ} {p' : Parser},
    SpecDerives dr p a v p' → dr.accOK →
      (∃ N, ∀ fuel, N ≤ fuel → runRule fuel dr.toRule p = .ok (a, p')) ∧
        evaluate a = .ok v := by
  intro dr p a v p' hder
  induction hder with
  | factorPlus htok heat hsub ih =>
    intro _
    simp only [DRule.toRule]
    obtain ⟨⟨N, hN⟩, hev⟩ := ih trivial
    refine ⟨⟨N + 1, ?_⟩, by simp [evaluate, hev, exc_bind_ok]⟩
    intro fuel hf
    obtain ⟨f, rfl⟩ : ∃ f, fuel = f + 1 := ⟨fuel - 1, by omega⟩
    have hN' := hN f (by omega)
    simp only [DRule.toRule] at hN'
    rw [runRule_factor_succ, if_pos htok, heat, exc_bind_ok, hN', exc_bind_ok]
  | factorMinus htok heat hsub ih =>
    intro _
    simp only [DRule.toRule]
    obtain ⟨⟨N, hN⟩, hev⟩ := ih trivial
    refine ⟨⟨N + 1, ?_⟩, by simp [evaluate, hev, exc_bind_ok]⟩
    intro fuel hf
    obtain ⟨f, rfl⟩ : ∃ f, fuel = f + 1 := ⟨fuel - 1, by omega⟩
    have hN' := hN f (by omega)
    simp only [DRule.toRule] at hN'
    rw [runRule_factor_succ, if_neg (by simp [htok]), if_pos htok, heat, exc_bind_ok,
      hN', exc_bind_ok]
  | factorNum htok heat =>
    intro _
    simp only [DRule.toRule]
    refine ⟨⟨1, ?_⟩, by simp [evaluate]⟩
    intro fuel hf
    obtain ⟨f, rfl⟩ : ∃ f, fuel = f + 1 := ⟨fuel - 1, by omega⟩
    rw [runRule_factor_succ, if_neg (by simp [htok]), if_neg (by simp [htok]),
      if_pos htok, heat, exc_bind_ok]
  | factorParen htok heat hsub heat2 ih =>
    intro _
    simp only [DRule.toRule]
    obtain ⟨⟨N, hN⟩, hev⟩ := ih trivial
    refine ⟨⟨N + 1, ?_⟩, hev⟩
    intro fuel hf
    obtain ⟨f, rfl⟩ : ∃ f, fuel = f + 1 := ⟨fuel - 1, by omega⟩
    have hN' := hN f (by omega)
    simp only [DRule.toRule] at hN'
    rw [runRule_factor_succ, if_neg (by simp [htok]), if_neg (by simp [htok]),
      if_neg (by simp [htok]), if_pos htok, heat, exc_bind_ok, hN']
    simp [exc_bind_ok, heat2]
  | termIntro hfac hloop ih1 ih2 =>
    intro _
    simp only [DRule.toRule]
    obtain ⟨⟨N1, hN1⟩, hev1⟩ := ih1 trivial
    obtain ⟨⟨N2, hN2⟩, hev2⟩ := ih2 hev1
    refine ⟨⟨max N1 N2 + 1, ?_⟩, hev2⟩
    intro fuel hf
    obtain ⟨f, rfl⟩ : ∃ f, fuel = f + 1 := ⟨fuel - 1, by omega⟩
    have h1 := hN1 f (by omega)
    have h2 := hN2 f (by omega)
    simp only [DRule.toRule] at h1 h2
    rw [runRule_term_succ, h1, exc_bind_ok]
    exact h2
  | termLoopDone hm hd =>
    intro hacc
    simp only [DRule.toRule]
    refine ⟨⟨1, ?_⟩, hacc⟩
    intro fuel hf
    obtain ⟨f, rfl⟩ : ∃ f, fuel = f + 1 := ⟨fuel - 1, by omega⟩
    rw [runRule_termLoop_succ, if_neg hm, if_neg hd]
  | termLoopMul htok heat hfac hloop ih1 ih2 =>
    intro hacc
    simp only [DRule.toRule]
    have hacc' : evaluate _ = .ok _ := hacc
    obtain ⟨⟨N1, hN1⟩, hev1⟩ := ih1 trivial
    obtain ⟨⟨N2, hN2⟩, hev2⟩ := ih2 (by simp [DRule.accOK, evaluate, hacc', hev1, exc_bind_ok])
    refine ⟨⟨max N1 N2 + 1, ?_⟩, hev2⟩
    intro fuel hf
    obtain ⟨f, rfl⟩ : ∃ f, fuel = f + 1 := ⟨fuel - 1, by omega⟩
    have h1 := hN1 f (by omega)
    have h2 := hN2 f (by omega)
    simp only [DRule.toRule] at h1 h2
    rw [runRule_termLoop_succ, if_pos htok, heat, exc_bind_ok, h1, exc_bind_ok]
    exact h2
  | termLoopDiv htok heat hfac hw hloop ih1 ih2 =>
    intro hacc
    simp only [DRule.toRule]
    have hacc' : evaluate _ = .ok _ := hacc
    obtain ⟨⟨N1, hN1⟩, hev1⟩ := ih1 trivial
    obtain ⟨⟨N2, hN2⟩, hev2⟩ := ih2 (by simp [DRule.accOK, evaluate, hacc', hev1, exc_bind_ok, hw])
    refine ⟨⟨max N1 N2 + 1, ?_⟩, hev2⟩
    intro fuel hf
    obtain ⟨f, rfl⟩ : ∃ f, fuel = f + 1 := ⟨fuel - 1, by omega⟩
    have h1 := hN1 f (by omega)
    have h2 := hN2 f (by omega)
    simp only [DRule.toRule] at h1 h2
    rw [runRule_termLoop_succ, if_neg (by simp [htok]), if_pos htok, heat, exc_bind_ok,
      h1, exc_bind_ok]
    exact h2
  | exprIntro hterm hloop ih1 ih2 =>
    intro _
    simp only [DRule.toRule]
    obtain ⟨⟨N1, hN1⟩, hev1⟩ := ih1 trivial
    obtain ⟨⟨N2, hN2⟩, hev2⟩ := ih2 hev1
    refine ⟨⟨max N1 N2 + 1, ?_⟩, hev2⟩
    intro fuel hf
    obtain ⟨f, rfl⟩ : ∃ f, fuel = f + 1 := ⟨fuel - 1, by omega⟩
    have h1 := hN1 f (by omega)
    have h2 := hN2 f (by omega)
    simp only [DRule.toRule] at h1 h2
    rw [runRule_expr_succ, h1, exc_bind_ok]
    exact h2
  | exprLoopDone hp hm =>
    intro hacc
    simp only [DRule.toRule]
    refine ⟨⟨1, ?_⟩, hacc⟩
    intro fuel hf
    obtain ⟨f, rfl⟩ : ∃ f, fuel = f + 1 := ⟨fuel - 1, by omega⟩
    rw [runRule_exprLoop_succ, if_neg hp, if_neg hm]
  | exprLoopAdd htok heat hterm hloop ih1 ih2 =>
    intro hacc
    simp only [DRule.toRule]
    have hacc' : evaluate _ = .ok _ := hacc
    obtain ⟨⟨N1, hN1⟩, hev1⟩ := ih1 trivial
    obtain ⟨⟨N2, hN2⟩, hev2⟩ := ih2 (by simp [DRule.accOK, evaluate, hacc', hev1, exc_bind_ok])
    refine ⟨⟨max N1 N2 + 1, ?_⟩, hev2⟩
    intro fuel hf
    obtain ⟨f, rfl⟩ : ∃ f, fuel = f + 1 := ⟨fuel - 1, by omega⟩
    have h1 := hN1 f (by omega)
    have h2 := hN2 f (by omega)
    simp only [DRule.toRule] at h1 h2
    rw [runRule_exprLoop_succ, if_pos htok, heat, exc_bind_ok, h1, exc_bind_ok]
    exact h2
  | exprLoopSub htok heat hterm hloop ih1 ih2 =>
    intro hacc
    simp only [DRule.toRule]
    have hacc' : evaluate _ = .ok _ := hacc
    obtain ⟨⟨N1, hN1⟩, hev1⟩ := ih1 trivial
    obtain ⟨⟨N2, hN2⟩, hev2⟩ := ih2 (by simp [DRule.accOK, evaluate, hacc', hev1, exc_bind_ok])
    refine ⟨⟨max N1 N2 + 1, ?_⟩, hev2⟩
    intro fuel hf
    obtain ⟨f, rfl⟩ : ∃ f, fuel = f + 1 := ⟨fuel - 1, by omega⟩
    have h1 := hN1 f (by omega)
    have h2 := hN2 f (by omega)
    simp only [DRule.toRule] at h1 h2
    rw [runRule_exprLoop_succ, if_neg (by simp [htok]), if_pos htok, heat, exc_bind_ok,
      h1, exc_bind_ok]
    exact h2

/-- A full grammar derivation whose final lookahead is EndOfInput makes
the whole entry point succeed with the derived value. -/
theorem pipeline_of_specDerives {s : String} {p0 : Parser} {a : AST} {v : ℚ} {pf : Parser}
    (hmk : mkParser s = .ok p0)
    (hder : SpecDerives .dExpr p0 a v pf)
    (hEOF : pf.current_token.type = .END_OF_FILE) :
    ∃ N, ∀ fuel, N ≤ fuel →
      parse fuel p0 = .ok (a, pf) ∧
      pipeline fuel s = .ok v ∧
      compile_and_evaluate fuel s = .ok v := by
  obtain ⟨⟨N, hN⟩, hev⟩ := specDerives_complete hder trivial
  refine ⟨N, fun fuel hf => ?_⟩
  have hrun := hN fuel hf
  simp only [DRule.toRule] at hrun
  have hparse : parse fuel p0 = .ok (a, pf) := by
    unfold parse
    rw [hrun, exc_bind_ok]
    simp [hEOF]
  have hpipe : pipeline fuel s = .ok v := by
    unfold pipeline
    rw [hmk, exc_bind_ok, hparse, exc_bind_ok]
    exact hev
  refine ⟨hparse, hpipe, ?_⟩
  unfold compile_and_evaluate
  rw [hpipe]

/-! Lemma stock: the input "-...-3" with `n` signs (for C7). -/

theorem minus_lex_minus {n k : Nat} (hk : k < n) :
    get_next_token ⟨(minusStr n).data, k⟩ =
      .ok (⟨.MINUS, 0⟩, ⟨(minusStr n).data, k + 1⟩) := by
  have h1 : ((List.replicate n '-' ++ ['3']) : List Char)[k]? = some '-' := by
    rw [List.getElem?_append_left (by simpa using hk)]
    exact List.getElem?_replicate_of_lt hk
  have hc : Lexer.current_char ⟨(minusStr n).data, k⟩ = '-' := by
    show Lexer.current_char ⟨List.replicate n '-' ++ ['3'], k⟩ = '-'
    simp [Lexer.current_char, List.getD_eq_getElem?_getD, h1]
  have hskip : skip_whitespace ⟨(minusStr n).data, k⟩ = ⟨(minusStr n).data, k⟩ :=
    skip_whitespace_id (by rw [hc]; rfl)
  unfold get_next_token
  simp only [hskip, hc]
  rfl

theorem minus_lex_number (n : Nat) :
    get_next_token ⟨(minusStr n).data, n⟩ =
      .ok (⟨.NUMBER, 3⟩, ⟨(minusStr n).data, n + 1⟩) := by
  have hdrop : ((minusStr n).data).drop n = ['3'] := by
    show ((List.replicate n '-' ++ ['3']) : List Char).drop n = ['3']
    exact List.drop_left' (by simp)
  have hc : Lexer.current_char ⟨(minusStr n).data, n⟩ = '3' :=
    current_char_of_drop (l := ⟨(minusStr n).data, n⟩) hdrop
  have hrun : numRun ⟨(minusStr n).data, n⟩ = ['3'] := by
    show (((minusStr n).data).drop n).takeWhile isDigitOrDot = ['3']
    rw [hdrop]
    rfl
  rw [get_next_token_number (by rw [hc]; decide)]
  rw [hrun]
  rw [show stod ['3'] = some 3 from by decide]
  rfl

theorem minus_lex_eof (n : Nat) :
    get_next_token ⟨(minusStr n).data, n + 1⟩ =
      .ok (⟨.END_OF_FILE, 0⟩, ⟨(minusStr n).data, n + 1⟩) := by
  refine get_next_token_exhausted ?_
  show ((List.replicate n '-' ++ ['3']) : List Char).length ≤ n + 1
  simp

theorem minus_factor_derives : ∀ (m n k : Nat), k + m = n →
    SpecDerives .dFactor
      (if m = 0 then ⟨⟨(minusStr n).data, n + 1⟩, ⟨.NUMBER, 3⟩⟩
       else ⟨⟨(minusStr n).data, k + 1⟩, ⟨.MINUS, 0⟩⟩)
      (nestNeg m (.numberNode 3)) ((-1) ^ m * 3)
      ⟨⟨(minusStr n).data, n + 1⟩, ⟨.END_OF_FILE, 0⟩⟩ := by
  intro m
  induction m with
  | zero =>
    intro n k hk
    simp only [if_pos rfl]
    have heat : eat ⟨⟨(minusStr n).data, n + 1⟩, ⟨.NUMBER, 3⟩⟩ .NUMBER =
        .ok ⟨⟨(minusStr n).data, n + 1⟩, ⟨.END_OF_FILE, 0⟩⟩ := by
      unfold eat
      rw [if_pos rfl, minus_lex_eof n]
      rfl
    have h := @SpecDerives.factorNum ⟨⟨(minusStr n).data, n + 1⟩, ⟨.NUMBER, 3⟩⟩
      ⟨⟨(minusStr n).data, n + 1⟩, ⟨.END_OF_FILE, 0⟩⟩ rfl heat
    simpa [nestNeg] using h
  | succ m ih =>
    intro n k hk
    have hkn : k < n := by omega
    rw [if_neg (Nat.succ_ne_zero m)]
    have heat : eat ⟨⟨(minusStr n).data, k + 1⟩, ⟨.MINUS, 0⟩⟩ .MINUS =
        .ok (if m = 0 then ⟨⟨(minusStr n).data, n + 1⟩, ⟨.NUMBER, 3⟩⟩
             else ⟨⟨(minusStr n).data, (k + 1) + 1⟩, ⟨.MINUS, 0⟩⟩) := by
      unfold eat
      rw [if_pos rfl]
      rcases Nat.eq_or_lt_of_le (Nat.succ_le_of_lt hkn) with he | hlt
      · have hm0 : m = 0 := by omega
        have he2 : k + 1 = n := he
        rw [hm0, if_pos rfl, he2, minus_lex_number n]
        rfl
      · have hm0 : m ≠ 0 := by omega
        rw [if_neg hm0, minus_lex_minus hlt]
        rfl
    have hsub := ih n (k + 1) (by omega)
    have h := SpecDerives.factorMinus rfl heat hsub
    have hval : -((-1 : ℚ) ^ m * 3) = (-1) ^ (m + 1) * 3 := by ring
    rw [hval] at h
    exact h

/-! The claims. -/

/-- Claim C1: for every valid expression over numeric literals, the four
binary operators and balanced parentheses (division only by nonzero
values), `evaluate` returns the mathematically correct value under
standard precedence (`*` and `/` bind tighter than `+` and `-`) and
left-associativity — formalised as: whatever the spec grammar derives
(`SpecDerives` folds values leftwards exactly per the grammar), the
entry point computes, given enough fuel; in particular
`evaluate "2 + 3 * 4" = 14` and `evaluate "10 - 5 - 2" = 3`. -/
theorem C1_evaluate_correct :
    (∀ (s : String) (p0 : Parser) (a : AST) (v : ℚ) (pf : Parser),
      mkParser s = .ok p0 →
      SpecDerives .dExpr p0 a v pf →
      pf.current_token.type = .END_OF_FILE →
      ∃ N, ∀ fuel, N ≤ fuel → compile_and_evaluate fuel s = .ok v)
    ∧ compile_and_evaluate 32 "2 + 3 * 4" = .ok 14
    ∧ compile_and_evaluate 32 "10 - 5 - 2" = .ok 3 := by
  refine ⟨?_, by decide, by decide⟩
  intro s p0 a v pf hmk hder hEOF
  obtain ⟨N, hN⟩ := pipeline_of_specDerives hmk hder hEOF
  exact ⟨N, fun fuel hf => (hN fuel hf).2.2⟩

/-- Witness for C1 at the input "7". -/
theorem C1_witness :
    ∃ N, ∀ fuel, N ≤ fuel → compile_and_evaluate fuel "7" = .ok 7 := by
  have heat : eat ⟨⟨"7".data, 1⟩, ⟨.NUMBER, 7⟩⟩ .NUMBER =
      .ok ⟨⟨"7".data, 1⟩, ⟨.END_OF_FILE, 0⟩⟩ := by decide
  have hfac : SpecDerives .dFactor ⟨⟨"7".data, 1⟩, ⟨.NUMBER, 7⟩⟩
      (.numberNode 7) 7 ⟨⟨"7".data, 1⟩, ⟨.END_OF_FILE, 0⟩⟩ :=
    @SpecDerives.factorNum ⟨⟨"7".data, 1⟩, ⟨.NUMBER, 7⟩⟩
      ⟨⟨"7".data, 1⟩, ⟨.END_OF_FILE, 0⟩⟩ rfl heat
  have hder : SpecDerives .dExpr ⟨⟨"7".data, 1⟩, ⟨.NUMBER, 7⟩⟩
      (.numberNode 7) 7 ⟨⟨"7".data, 1⟩, ⟨.END_OF_FILE, 0⟩⟩ :=
    SpecDerives.exprIntro
      (SpecDerives.termIntro hfac (SpecDerives.termLoopDone (by decide) (by decide)))
      (SpecDerives.exprLoopDone (by decide) (by decide))
  exact C1_evaluate_correct.1 "7" ⟨⟨"7".data, 1⟩, ⟨.NUMBER, 7⟩⟩ (.numberNode 7) 7
    ⟨⟨"7".data, 1⟩, ⟨.END_OF_FILE, 0⟩⟩ (by decide) hder (by decide)

/-- Claim C2: evaluating a division node whose operands both evaluate
fails with `DivisionByZero` exactly when the evaluated right operand is
zero (no epsilon tolerance), and otherwise returns the quotient; in
particular `evaluate "5 / 0"` fails with a `CompilationError` wrapping
`DivisionByZero`. -/
theorem C2_division_by_zero :
    (∀ (l r : AST) (lv rv : ℚ), evaluate l = .ok lv → evaluate r = .ok rv →
      ((evaluate (.binaryOpNode l .DIVIDE r) = .error .divisionByZero ↔ rv = 0) ∧
       (rv ≠ 0 → evaluate (.binaryOpNode l .DIVIDE r) = .ok (lv / rv))))
    ∧ compile_and_evaluate 32 "5 / 0" = .error ⟨.divisionByZero⟩ := by
  refine ⟨?_, by decide⟩
  intro l r lv rv hl hr
  have hev : evaluate (.binaryOpNode l .DIVIDE r) =
      (if rv = 0 then .error .divisionByZero else .ok (lv / rv)) := by
    simp [evaluate, hl, hr, exc_bind_ok]
  refine ⟨⟨?_, ?_⟩, ?_⟩
  · intro h
    by_contra hz
    rw [hev, if_neg hz] at h
    exact Except.noConfusion h
  · intro hz
    rw [hev, if_pos hz]
  · intro hz
    rw [hev, if_neg hz]

/-- Witness for C2 at the division node 5 / 0. -/
theorem C2_witness :
    ((evaluate (.binaryOpNode (.numberNode 5) .DIVIDE (.numberNode 0)) =
        .error .divisionByZero ↔ (0 : ℚ) = 0) ∧
      ((0 : ℚ) ≠ 0 →
        evaluate (.binaryOpNode (.numberNode 5) .DIVIDE (.numberNode 0)) =
          .ok (5 / 0))) :=
  C2_division_by_zero.1 (.numberNode 5) (.numberNode 0) 5 0 rfl rfl

/-- Claim C3: the entry point returns exactly the pipeline's success
value, and any internal failure aborts the call: the result is then a
single `CompilationError` wrapping the innermost cause, whose message is
"Compilation error: " prefixed to the cause's message. -/
theorem C3_error_wrapping :
    ∀ (fuel : Nat) (s : String),
      (∀ v, compile_and_evaluate fuel s = .ok v ↔ pipeline fuel s = .ok v) ∧
      (∀ e, pipeline fuel s = .error e →
        compile_and_evaluate fuel s = .error ⟨e⟩ ∧
        CompilationError.message ⟨e⟩ = "Compilation error: " ++ e.message) ∧
      (∀ ce, compile_and_evaluate fuel s = .error ce →
        ∃ e, pipeline fuel s = .error e ∧ ce = ⟨e⟩) := by
  intro fuel s
  rcases hp : pipeline fuel s with e | v
  · have hc : compile_and_evaluate fuel s = .error ⟨e⟩ := by
      unfold compile_and_evaluate
      rw [hp]
    refine ⟨?_, ?_, ?_⟩
    · intro v
      rw [hc]
      simp
    · intro e2 he2
      cases he2
      exact ⟨hc, rfl⟩
    · intro ce hce
      rw [hc] at hce
      cases hce
      exact ⟨e, rfl, rfl⟩
  · have hc : compile_and_evaluate fuel s = .ok v := by
      unfold compile_and_evaluate
      rw [hp]
    refine ⟨?_, ?_, ?_⟩
    · intro v2
      rw [hc]
      simp
    · intro e2 he2
      exact Except.noConfusion he2
    · intro ce hce
      rw [hc] at hce
      exact Except.noConfusion hce

/-- Witness for C3 at the failing input "" and fuel 32. -/
theorem C3_witness :
    compile_and_evaluate 32 "" = .error ⟨.invalidStx⟩ ∧
    CompilationError.message ⟨.invalidStx⟩ =
      "Compilation error: " ++ Err.message .invalidStx :=
  (C3_error_wrapping 32 "").2.1 .invalidStx (by decide)

/-- Claim C4: at a scan point holding a digit or a dot the lexer
consumes the maximal greedy run of digits and dots (no validation of
repeated dots: on "1.2.3" the run is all five characters) and produces
one Number token whose payload is the numeric conversion of that run,
the conversion's own failure being the only possible failure. -/
theorem C4_number_scan :
    (∀ l : Lexer, isDigitOrDot l.current_char = true →
      get_next_token l =
        match stod (numRun l) with
        | some v => .ok (⟨.NUMBER, v⟩, ⟨l.input, l.position + (numRun l).length⟩)
        | none => .error .numericConversionFailure)
    ∧ numRun (mkLexer "1.2.3") = "1.2.3".data := by
  refine ⟨?_, by decide⟩
  intro l h
  exact get_next_token_number h

/-- Witness for C4 at the lexer state scanning "1.2.3" from position 0. -/
theorem C4_witness :
    get_next_token ⟨"1.2.3".data, 0⟩ =
      match stod (numRun ⟨"1.2.3".data, 0⟩) with
      | some v =>
        .ok (⟨.NUMBER, v⟩,
          ⟨("1.2.3".data : List Char), 0 + (numRun ⟨"1.2.3".data, 0⟩).length⟩)
      | none => .error .numericConversionFailure :=
  C4_number_scan.1 ⟨"1.2.3".data, 0⟩ (by decide)

/-- Claim C5: whenever `expr` completes, `parse` returns its root node
exactly when the remaining lookahead is EndOfInput, and otherwise fails
with the spec's `UnexpectedToken` kind (the source's "Unexpected token
at end of expression" throw); in particular `evaluate "2 + 3)"` fails
on the trailing unmatched token. -/
theorem C5_parse_requires_eof :
    (∀ (fuel : Nat) (p : Parser) (n : AST) (p1 : Parser),
      runRule fuel .exprR p = .ok (n, p1) →
      (p1.current_token.type = .END_OF_FILE → parse fuel p = .ok (n, p1)) ∧
      (p1.current_token.type ≠ .END_OF_FILE →
        parse fuel p = .error .unexpectedTokenAtEnd ∧
        Err.isUnexpectedTokenKind .unexpectedTokenAtEnd = true))
    ∧ compile_and_evaluate 32 "2 + 3)" = .error ⟨.unexpectedTokenAtEnd⟩ := by
  refine ⟨?_, by decide⟩
  intro fuel p n p1 h
  constructor
  · intro hEOF
    unfold parse
    rw [h, exc_bind_ok]
    simp [hEOF]
  · intro hne
    refine ⟨?_, rfl⟩
    unfold parse
    rw [h, exc_bind_ok]
    simp [hne]

/-- Witness for C5 on the input "2 + 3)". -/
theorem C5_witness :
    parse 32 ⟨⟨"2 + 3)".data, 1⟩, ⟨.NUMBER, 2⟩⟩ = .error .unexpectedTokenAtEnd ∧
    Err.isUnexpectedTokenKind .unexpectedTokenAtEnd = true :=
  (C5_parse_requires_eof.1 32 ⟨⟨"2 + 3)".data, 1⟩, ⟨.NUMBER, 2⟩⟩
    (.binaryOpNode (.numberNode 2) .PLUS (.numberNode 3))
    ⟨⟨"2 + 3)".data, 6⟩, ⟨.RPAREN, 0⟩⟩ (by decide)).2 (by decide)

/-- Claim C6: once the lexer is exhausted (position at or past the end
of the input), every subsequent call to `get_next_token` — the k-th
for every k — returns EndOfInput and leaves the lexer in the same
exhausted state. -/
theorem C6_eof_idempotent :
    ∀ (l : Lexer) (k : Nat), l.input.length ≤ l.position →
      callN k l = .ok (⟨.END_OF_FILE, 0⟩, l) := by
  intro l k h
  induction k with
  | zero => exact get_next_token_exhausted h
  | succ k ih =>
    show (do
      let (_, l1) ← get_next_token l
      callN k l1) = .ok (⟨.END_OF_FILE, 0⟩, l)
    rw [get_next_token_exhausted h, exc_bind_ok]
    exact ih

/-- Witness for C6: five further calls on an exhausted lexer. -/
theorem C6_witness :
    callN 5 ⟨['a'], 1⟩ = .ok (⟨.END_OF_FILE, 0⟩, ⟨['a'], 1⟩) :=
  C6_eof_idempotent ⟨['a'], 1⟩ 5 (by decide)

/-- Claim C7: unary plus returns its operand's value and unary minus its
negation; a run of n unary minus signs parses to n nested `UnaryOpNode`s
(signs bind tighter than any binary operator, being handled entirely
inside `factor`), and `evaluate "--3" = 3`, `evaluate "-3 + 4" = 1`. -/
theorem C7_unary_nesting :
    (∀ (a : AST) (v : ℚ), evaluate a = .ok v →
      evaluate (.unaryOpNode .PLUS a) = .ok v ∧
      evaluate (.unaryOpNode .MINUS a) = .ok (-v))
    ∧ (∀ n : Nat, ∃ N, ∀ fuel, N ≤ fuel →
        ∃ p0, mkParser (minusStr n) = .ok p0 ∧
          parse fuel p0 =
            .ok (nestNeg n (.numberNode 3),
              ⟨⟨(minusStr n).data, n + 1⟩, ⟨.END_OF_FILE, 0⟩⟩) ∧
          compile_and_evaluate fuel (minusStr n) = .ok ((-1) ^ n * 3))
    ∧ compile_and_evaluate 32 "--3" = .ok 3
    ∧ compile_and_evaluate 32 "-3 + 4" = .ok 1 := by
  refine ⟨?_, ?_, by decide, by decide⟩
  · intro a v h
    exact ⟨by simp [evaluate, h, exc_bind_ok], by simp [evaluate, h, exc_bind_ok]⟩
  · intro n
    have hfac := minus_factor_derives n n 0 (by omega)
    have hder : SpecDerives .dExpr
        (if n = 0 then ⟨⟨(minusStr n).data, n + 1⟩, ⟨.NUMBER, 3⟩⟩
         else ⟨⟨(minusStr n).data, 0 + 1⟩, ⟨.MINUS, 0⟩⟩)
        (nestNeg n (.numberNode 3)) ((-1) ^ n * 3)
        ⟨⟨(minusStr n).data, n + 1⟩, ⟨.END_OF_FILE, 0⟩⟩ :=
      SpecDerives.exprIntro
        (SpecDerives.termIntro hfac
          (SpecDerives.termLoopDone (fun hcon => TokenType.noConfusion hcon)
            (fun hcon => TokenType.noConfusion hcon)))
        (SpecDerives.exprLoopDone (fun hcon => TokenType.noConfusion hcon)
          (fun hcon => TokenType.noConfusion hcon))
    have hmk : mkParser (minusStr n) =
        .ok (if n = 0 then ⟨⟨(minusStr n).data, n + 1⟩, ⟨.NUMBER, 3⟩⟩
             else ⟨⟨(minusStr n).data, 0 + 1⟩, ⟨.MINUS, 0⟩⟩) := by
      unfold mkParser mkLexer
      rcases Nat.eq_zero_or_pos n with rfl | hn
      · rw [if_pos rfl, minus_lex_number 0]
        rfl
      · rw [if_neg (by omega), minus_lex_minus hn]
        rfl
    obtain ⟨N, hN⟩ := pipeline_of_specDerives hmk hder rfl
    exact ⟨N, fun fuel hf =>
      ⟨_, hmk, (hN fuel hf).1, (hN fuel hf).2.2⟩⟩

/-- Witness for C7: the nested parse statement at n = 2, and the
evaluation facts at the operand 3. -/
theorem C7_witness :
    (evaluate (.unaryOpNode .PLUS (.numberNode 3)) = .ok 3 ∧
      evaluate (.unaryOpNode .MINUS (.numberNode 3)) = .ok (-3)) ∧
    (∃ N, ∀ fuel, N ≤ fuel →
      ∃ p0, mkParser (minusStr 2) = .ok p0 ∧
        parse fuel p0 =
          .ok (nestNeg 2 (.numberNode 3),
            ⟨⟨(minusStr 2).data, 2 + 1⟩, ⟨.END_OF_FILE, 0⟩⟩) ∧
        compile_and_evaluate fuel (minusStr 2) = .ok ((-1) ^ 2 * 3)) :=
  ⟨C7_unary_nesting.1 (.numberNode 3) 3 rfl, C7_unary_nesting.2.1 2⟩

/-- Claim C8: on the empty input — and on any all-whitespace input —
the lexer immediately yields EndOfInput, no `factor` alternative
matches, and the call fails with `InvalidSyntax` wrapped in a
`CompilationError`. -/
theorem C8_empty_input_fails :
    (∀ (s : String) (fuel : Nat), 3 ≤ fuel → (∀ c ∈ s.data, isspace c = true) →
      compile_and_evaluate fuel s = .error ⟨.invalidStx⟩)
    ∧ compile_and_evaluate 32 "" = .error ⟨.invalidStx⟩ := by
  refine ⟨?_, by decide⟩
  intro s fuel hf hsp
  have hmk := mkParser_all_space hsp
  have hexpr := expr_invalidStx_of_eof
    (show (⟨⟨s.data, s.data.length⟩, ⟨.END_OF_FILE, 0⟩⟩ : Parser).current_token.type =
      .END_OF_FILE from rfl) fuel hf
  have hparse : parse fuel ⟨⟨s.data, s.data.length⟩, ⟨.END_OF_FILE, 0⟩⟩ =
      .error .invalidStx := by
    unfold parse
    rw [hexpr, exc_bind_error]
  have hpipe : pipeline fuel s = .error .invalidStx := by
    unfold pipeline
    rw [hmk, exc_bind_ok, hparse, exc_bind_error]
  unfold compile_and_evaluate
  rw [hpipe]

/-- Witness for C8 on a one-space input. -/
theorem C8_witness : compile_and_evaluate 32 " " = .error ⟨.invalidStx⟩ :=
  C8_empty_input_fails.1 " " 32 (by omega) (by decide)

/-- Claim C9: every AST `parse` returns is operator-well-formed, so the
"Unknown binary operator" and "Unknown unary operator" branches are
unreachable on parser-built trees and evaluation can only fail with
`DivisionByZero`. -/
theorem C9_no_unknown_operator :
    ∀ (fuel : Nat) (p : Parser) (a : AST) (p1 : Parser),
      parse fuel p = .ok (a, p1) →
      wellFormed a = true ∧ ∀ e, evaluate a = .error e → e = .divisionByZero := by
  intro fuel p a p1 h
  unfold parse at h
  obtain ⟨⟨n, p2⟩, h1, h2⟩ := exc_bind_eq_ok.mp h
  have hwf : wellFormed n = true := runRule_wellFormed fuel .exprR p n p2 h1 rfl
  have h2i : (if p2.current_token.type = .END_OF_FILE
      then (Except.ok (n, p2) : Except Err (AST × Parser))
      else .error .unexpectedTokenAtEnd) = .ok (a, p1) := h2
  by_cases hcond : p2.current_token.type = .END_OF_FILE
  · rw [if_pos hcond] at h2i
    simp only [Except.ok.injEq, Prod.mk.injEq] at h2i
    obtain ⟨rfl, rfl⟩ := h2i
    exact ⟨hwf, evaluate_wf_error _ hwf⟩
  · rw [if_neg hcond] at h2i
    exact absurd h2i (by simp)

/-- Witness for C9 on the parse of "1 + 2". -/
theorem C9_witness :
    wellFormed (.binaryOpNode (.numberNode 1) .PLUS (.numberNode 2)) = true ∧
    ∀ e, evaluate (.binaryOpNode (.numberNode 1) .PLUS (.numberNode 2)) = .error e →
      e = .divisionByZero :=
  C9_no_unknown_operator 32 ⟨⟨"1 + 2".data, 1⟩, ⟨.NUMBER, 1⟩⟩
    (.binaryOpNode (.numberNode 1) .PLUS (.numberNode 2))
    ⟨⟨"1 + 2".data, 5⟩, ⟨.END_OF_FILE, 0⟩⟩ (by decide)

/-- Claim C10: `evaluate "1.2.3"` succeeds with 1.2 (here the exact
rational 6/5): the lexer consumes the whole string as one numeric run,
and the conversion parses the longest valid prefix "1.2" ignoring the
rest, producing a single Number token — no `NumericConversionFailure`. -/
theorem C10_malformed_literal_ok :
    compile_and_evaluate 32 "1.2.3" = .ok (6 / 5) ∧
    numRun (mkLexer "1.2.3") = "1.2.3".data ∧
    stod "1.2.3".data = some (6 / 5) :=
  ⟨by decide, by decide, by decide⟩
